import Mathlib

/-!
Verification of `scripts/fix_all_markdown.py` (the markdown lint fixer).

The program is a single pure text transformation applied per file:

1. a header/list spacing pass over the lines of the file (`pass1`),
2. a fenced-code-block spacing pass over the result (`pass2`),
3. four global regex substitutions on the joined text: bare-URL wrapping
   (`urlSub`), bare-email wrapping (`emailSub`), blank-line collapsing
   (`collapse`), and fence language tagging (`fenceTag`),
4. a write-back decision: overwrite the file only when the text changed
   (`fix_markdown_file`).

Text is modelled as `List Char`; a document is the list of its lines
(`content.split('\n')`).  Every scanner is written with an explicit fuel
argument equal to the input length so that all definitions compute by
kernel reduction; each scanning step consumes at least one character, so
the fuel is never exhausted on the initial call.
-/

/-- Python's `\s` (whitespace class) restricted to ASCII, as used by
`str.strip` and the regexes in the script. -/
def isPySpace (c : Char) : Bool :=
  c = ' ' || c = '\t' || c = '\n' || c = '\r' || c = '\x0b' || c = '\x0c'

/-- A line whose `strip()` is empty. -/
def isBlank (l : List Char) : Bool :=
  l.all isPySpace

/-- `re.match(r'^#{1,6}\s+', line)`: one to six `#` followed by whitespace.
Since `#` is not whitespace, the regex matches exactly when the full run of
leading `#` characters has length between 1 and 6 and is followed by a
whitespace character. -/
def isHeader (l : List Char) : Bool :=
  let hs := l.takeWhile (fun c => c = '#')
  decide (1 ≤ hs.length) && decide (hs.length ≤ 6) &&
    (match l.drop hs.length with
     | d :: _ => isPySpace d
     | [] => false)

/-- Bullet markers of the list-item regex `[-*+]`. -/
def isBullet (c : Char) : Bool :=
  c = '-' || c = '*' || c = '+'

/-- `re.match(r'^[\s]*[-*+]\s+', line) or re.match(r'^[\s]*\d+\.\s+', line)`. -/
def isListItem (l : List Char) : Bool :=
  let r := l.dropWhile isPySpace
  (match r with
   | c :: d :: _ => isBullet c && isPySpace d
   | _ => false)
  ||
  (let ds := r.takeWhile Char.isDigit
   match r.drop ds.length with
   | '.' :: d :: _ => decide (ds ≠ []) && isPySpace d
   | _ => false)

/-- `line.strip().startswith('```')`: after removing leading whitespace the
line begins with three backticks (trailing strip cannot affect this). -/
def isFence (l : List Char) : Bool :=
  match l.dropWhile isPySpace with
  | '`' :: '`' :: '`' :: _ => true
  | _ => false

/-- `content.split('\n')`: split on every newline, keeping empty pieces
(`''.split('\n') == ['']`). -/
def splitNl : List Char → List (List Char)
  | [] => [[]]
  | c :: rest =>
    if c = '\n' then [] :: splitNl rest
    else
      match splitNl rest with
      | h :: t => (c :: h) :: t
      | [] => [[c]]

/-- `'\n'.join(lines)`. -/
def joinNl : List (List Char) → List Char
  | [] => []
  | [l] => l
  | l :: l2 :: rest => l ++ '\n' :: joinNl (l2 :: rest)

/-- The header/list spacing pass (the `while i < len(lines)` loop of
`fix_markdown_file`, lines 19–58 of the script), transliterated with the
loop index `i` explicit and fuel bounding the remaining iterations.
`prev`/`nxt` are `lines[i-1]`/`lines[i+1]` of the ORIGINAL line list (or
`''` at the boundaries), exactly as in the source. -/
def pass1F : Nat → List (List Char) → Nat → List (List Char)
  | 0, _, _ => []
  | fuel + 1, ls, i =>
    if i < ls.length then
      let line := ls.getD i []
      let prev := if 0 < i then ls.getD (i - 1) [] else []
      let nxt := if i + 1 < ls.length then ls.getD (i + 1) [] else []
      if isHeader line then
        -- MD022: headers surrounded by blank lines
        let before := if decide (0 < i) && !(isBlank prev) then [([] : List Char)] else []
        if decide (i + 1 < ls.length) && !(isBlank nxt) && !(isHeader nxt) then
          -- the source appends '' and advances i past the next line
          before ++ [line, []] ++ pass1F fuel ls (i + 2)
        else
          before ++ [line] ++ pass1F fuel ls (i + 1)
      else if isListItem line then
        -- MD032: lists surrounded by blank lines
        let before := if !(isListItem prev) && !(isBlank prev) then [([] : List Char)] else []
        if !(isListItem nxt) && !(isBlank nxt) then
          -- the source appends line again before the blank line
          before ++ [line, line, []] ++ pass1F fuel ls (i + 1)
        else
          before ++ [line] ++ pass1F fuel ls (i + 1)
      else
        line :: pass1F fuel ls (i + 1)
    else []

def pass1 (ls : List (List Char)) : List (List Char) :=
  pass1F ls.length ls 0

/-- The fenced-code-block spacing pass (the `for i, line in
enumerate(fixed_lines)` loop, lines 60–78 of the script). -/
def pass2F : Nat → List (List Char) → Nat → List (List Char)
  | 0, _, _ => []
  | fuel + 1, ls, i =>
    if i < ls.length then
      let line := ls.getD i []
      let prev := if 0 < i then ls.getD (i - 1) [] else []
      let nxt := if i + 1 < ls.length then ls.getD (i + 1) [] else []
      if isFence line then
        -- MD031: fenced code blocks surrounded by blank lines
        let before :=
          if decide (0 < i) && !(isBlank prev) && !(isFence prev) then [([] : List Char)] else []
        let after :=
          if decide (i + 1 < ls.length) && !(isBlank nxt) && !(isFence nxt) then
            -- the source appends line again before the blank line
            [line, ([] : List Char)]
          else []
        before ++ [line] ++ after ++ pass2F fuel ls (i + 1)
      else
        line :: pass2F fuel ls (i + 1)
    else []

def pass2 (ls : List (List Char)) : List (List Char) :=
  pass2F ls.length ls 0

/-- Characters allowed in the URL body: `[^\s\)>\]]`. -/
def isUrlChar (c : Char) : Bool :=
  !(isPySpace c || c = ')' || c = '>' || c = ']')

/-- `https?://` at the head of the list: returns the scheme characters and
the remainder. -/
def schemeSplit : List Char → Option (List Char × List Char)
  | 'h' :: 't' :: 't' :: 'p' :: 's' :: ':' :: '/' :: '/' :: r =>
    some (['h', 't', 't', 'p', 's', ':', '/', '/'], r)
  | 'h' :: 't' :: 't' :: 'p' :: ':' :: '/' :: '/' :: r =>
    some (['h', 't', 't', 'p', ':', '/', '/'], r)
  | _ => none

/-- `re.sub(r'(\s)(https?://[^\s\)>\]]+)(\s)', r'\1<\2>\3', content)`:
left-to-right scan; at each position a match needs a whitespace character,
the scheme, a maximal nonempty run of URL-body characters (the character
class excludes whitespace, so only the maximal run can be followed by the
required trailing whitespace), and a whitespace character.  Scanning
resumes after the trailing whitespace of a match; on failure it advances
one character. -/
def urlSubF : Nat → List Char → List Char
  | 0, l => l
  | _ + 1, [] => []
  | fuel + 1, c :: rest =>
    if isPySpace c then
      match schemeSplit rest with
      | some (sch, after) =>
        let body := after.takeWhile isUrlChar
        let after2 := after.drop body.length
        if body.isEmpty then c :: urlSubF fuel rest
        else
          match after2 with
          | d :: rest2 =>
            if isPySpace d then
              c :: '<' :: (sch ++ body ++ '>' :: d :: urlSubF fuel rest2)
            else c :: urlSubF fuel rest
          | [] => c :: urlSubF fuel rest
      | none => c :: urlSubF fuel rest
    else c :: urlSubF fuel rest

def urlSub (l : List Char) : List Char :=
  urlSubF l.length l

/-- Word characters `\w` restricted to ASCII. -/
def isWordChar (c : Char) : Bool :=
  c.isAlpha || c.isDigit || c = '_'

/-- The class `[\w\.-]` of the email regex. -/
def isAddrChar (c : Char) : Bool :=
  isWordChar c || c = '.' || c = '-'

/-- `re.sub(r'(\s)([\w\.-]+@[\w\.-]+\.\w+)(\s)', r'\1<\2>\3', content)`:
whitespace, a maximal nonempty `[\w.-]` run, `@`, a maximal `[\w.-]` run
that consists of a nonempty `[\w.-]+` part, a literal `.`, and a nonempty
word-char suffix reaching the end of the run (regex backtracking chooses
the dot immediately before the trailing word run, and the `[\w\.-]+`
before it must still be nonempty, so e.g. a domain `.org` does not
match), and trailing whitespace. -/
def emailSubF : Nat → List Char → List Char
  | 0, l => l
  | _ + 1, [] => []
  | fuel + 1, c :: rest =>
    if isPySpace c then
      let a := rest.takeWhile isAddrChar
      match a.isEmpty, rest.drop a.length with
      | false, '@' :: afterAt =>
        let b := afterAt.takeWhile isAddrChar
        let tw := (b.reverse.takeWhile isWordChar).reverse
        let okDot :=
          match b.reverse.drop tw.length with
          | '.' :: _ :: _ => true
          | _ => false
        if decide (¬ b.isEmpty) && decide (¬ tw.isEmpty) && okDot then
          match afterAt.drop b.length with
          | d :: rest2 =>
            if isPySpace d then
              c :: '<' :: (a ++ '@' :: b ++ '>' :: d :: emailSubF fuel rest2)
            else c :: emailSubF fuel rest
          | [] => c :: emailSubF fuel rest
        else c :: emailSubF fuel rest
      | _, _ => c :: emailSubF fuel rest
    else c :: emailSubF fuel rest

def emailSub (l : List Char) : List Char :=
  emailSubF l.length l

/-- `re.sub(r'\n\n\n+', '\n\n', content)`: a maximal run of three or more
newlines is replaced by two; scanning resumes after the run. -/
def collapseF : Nat → List Char → List Char
  | 0, l => l
  | _ + 1, [] => []
  | fuel + 1, c :: rest =>
    if (c :: rest).take 3 = ['\n', '\n', '\n'] then
      '\n' :: '\n' :: collapseF fuel (((c :: rest).drop 3).dropWhile (fun d => d = '\n'))
    else
      c :: collapseF fuel rest

def collapse (l : List Char) : List Char :=
  collapseF l.length l

/-- `re.sub(r'\n```\n', '\n```bash\n', content)`: each (non-overlapping,
left-to-right) occurrence of newline, three backticks, newline becomes
newline, three backticks, `bash`, newline; scanning resumes after the
consumed trailing newline. -/
def fenceTagF : Nat → List Char → List Char
  | 0, l => l
  | _ + 1, [] => []
  | fuel + 1, c :: rest =>
    if (c :: rest).take 5 = ['\n', '`', '`', '`', '\n'] then
      '\n' :: '`' :: '`' :: '`' :: 'b' :: 'a' :: 's' :: 'h' :: '\n' ::
        fenceTagF fuel ((c :: rest).drop 5)
    else
      c :: fenceTagF fuel rest

def fenceTag (l : List Char) : List Char :=
  fenceTagF l.length l

/-- The full text transformation of `fix_markdown_file`: both line passes
followed by the four global substitutions, in source order. -/
def fixContent (s : String) : String :=
  let ls := splitNl s.data
  let fixedLines := pass1 ls
  let resultLines := pass2 fixedLines
  let t0 := joinNl resultLines
  let t1 := urlSub t0
  let t2 := emailSub t1
  let t3 := collapse t2
  let t4 := fenceTag t3
  String.mk t4

/-- Observable outcome of one call of `fix_markdown_file` on a file whose
current content is `original`: the content on disk afterwards, whether a
write occurred, and the returned boolean. -/
structure FixOutcome where
  fileAfter : String
  wrote : Bool
  ret : Bool
  deriving Repr, DecidableEq

/-- `fix_markdown_file` (lines 10–97): read the file, transform, and
overwrite only if the text changed, returning `True` exactly then. -/
def fix_markdown_file (original : String) : FixOutcome :=
  if fixContent original ≠ original then
    { fileAfter := fixContent original, wrote := true, ret := true }
  else
    { fileAfter := original, wrote := false, ret := false }

/-- Number of lines of `s` that are not blank (used to express the
no-data-loss invariant). -/
def nonBlankLineCount (s : String) : Nat :=
  ((splitNl s.data).filter (fun l => !(isBlank l))).length

/-- `pat` is a prefix of `l`. -/
def leadsWith : List Char → List Char → Bool
  | [], _ => true
  | _ :: _, [] => false
  | p :: ps, c :: cs => p = c && leadsWith ps cs

/-- `pat` occurs as a contiguous substring of `l`. -/
def hasSub (pat : List Char) : List Char → Bool
  | [] => leadsWith pat []
  | c :: rest => leadsWith pat (c :: rest) || hasSub pat rest

/-- Three consecutive newline characters occur somewhere in `l`. -/
def hasTriple : List Char → Bool
  | [] => false
  | c :: rest => decide ((c :: rest).take 3 = ['\n', '\n', '\n']) || hasTriple rest

/-!
## Claim theorems
-/

/-- Claim C1 (code bug): the transformation is supposed to preserve the
count of non-blank content lines, but the header pass of
`fix_markdown_file` advances the loop index past the line following a
header while appending only a blank line, so that line is deleted.  On
the well-formed input `"Intro\n## Sec\nBody text"` the non-blank line
count drops from 3 to 2 and the line `"Body text"` disappears. -/
theorem c1_header_pass_loses_nonblank_line :
    fixContent "Intro\n## Sec\nBody text" = "Intro\n\n## Sec\n" ∧
    nonBlankLineCount "Intro\n## Sec\nBody text" = 3 ∧
    nonBlankLineCount (fixContent "Intro\n## Sec\nBody text") = 2 := by
  refine ⟨rfl, rfl, rfl⟩

/-- Claim C2 (code bug): the spec requires
`fixContent "Title\n# Heading\nBody" = "Title\n\n# Heading\n\nBody"`, but
the code drops the line `"Body"` after the heading: it produces
`"Title\n\n# Heading\n"` and `Body` does not occur in the output. -/
theorem c2_header_spacing_actual_output :
    fixContent "Title\n# Heading\nBody" = "Title\n\n# Heading\n" ∧
    fixContent "Title\n# Heading\nBody" ≠ "Title\n\n# Heading\n\nBody" ∧
    hasSub "Body".data (fixContent "Title\n# Heading\nBody").data = false := by
  refine ⟨rfl, by decide, rfl⟩

/-- Claim C3 (code bug): the spec requires
`"Para\n\n- item1\n- item2\n\nPara2"` with each list item appearing
exactly once, but the list pass appends the last list item a second time
before the inserted blank line, so `"- item2"` occurs twice. -/
theorem c3_list_spacing_actual_output :
    fixContent "Para\n- item1\n- item2\nPara2" =
      "Para\n\n- item1\n- item2\n- item2\n\nPara2" ∧
    ((splitNl (fixContent "Para\n- item1\n- item2\nPara2").data).filter
        (fun l => l = "- item2".data)).length = 2 := by
  refine ⟨rfl, rfl⟩

/-- Claim C4, counterexample: the transformation is not idempotent.  For
`"a https://x https://y b"` the first run consumes the whitespace between
the two URLs as the trailing context of the first match, leaving the
second URL bare; the second run then wraps it as well. -/
theorem c4_idempotence_fails :
    fixContent (fixContent "a https://x https://y b") ≠
      fixContent "a https://x https://y b" := by
  decide

/-- Claim C4 as amended: the transformation is idempotent on inputs whose
rewrites do not abut (in particular on each of the spec's §8 example
inputs); in general a second run can make further changes when one
match's consumed context overlaps the next occurrence. -/
theorem c4_idempotent_on_separated_examples :
    fixContent (fixContent "Title\n# Heading\nBody") =
      fixContent "Title\n# Heading\nBody" ∧
    fixContent (fixContent "Para\n- item1\n- item2\nPara2") =
      fixContent "Para\n- item1\n- item2\nPara2" ∧
    fixContent (fixContent "See https://example.com for details") =
      fixContent "See https://example.com for details" ∧
    fixContent (fixContent "a\n\n\n\nb") = fixContent "a\n\n\n\nb" := by
  refine ⟨rfl, rfl, rfl, rfl⟩

/-- Claim C5 (code bug): in the fence spacing pass, a fence line whose
successor is non-blank and not a fence is emitted twice (the source
appends `line` again instead of only the blank), so not every input line
appears exactly once in the output. -/
theorem c5_fence_pass_duplicates_fence :
    pass2 ["text".data, "```".data, "more".data] =
      ["text".data, [], "```".data, "```".data, [], "more".data] ∧
    ((pass2 ["text".data, "```".data, "more".data]).filter
        (fun l => l = "```".data)).length = 2 := by
  refine ⟨rfl, rfl⟩

/-- Claim C6, counterexample: not every occurrence of
newline-backticks-newline is rewritten.  In `"a\n```\n```\nb"` the two
occurrences share the middle newline; the scan consumes it with the
first match, so the second fence (also surrounded by newlines) keeps no
language tag and the pattern still occurs in the output. -/
theorem c6_overlapping_fence_not_tagged :
    fenceTag "a\n```\n```\nb".data = "a\n```bash\n```\nb".data ∧
    hasSub "\n```\n".data (fenceTag "a\n```\n```\nb".data) = true := by
  refine ⟨rfl, rfl⟩

/-- Claim C6 as amended: occurrences of newline-backticks-newline are
rewritten to the `bash`-tagged form in a single left-to-right
non-overlapping scan (opening and closing fences alike); an occurrence
whose leading newline was already consumed by the previous match is left
untouched.  In particular a bare opening fence with newlines on both
sides followed by content is annotated in the final output. -/
theorem c6_fence_tagging_left_to_right :
    fixContent "Intro\n\n```\ncode\n\nTail" =
      "Intro\n\n```bash\n```\n\ncode\n\nTail" ∧
    hasSub "```bash".data (fixContent "Intro\n\n```\ncode\n\nTail").data = true := by
  refine ⟨rfl, rfl⟩

/-- Claim C7, counterexample: not every whitespace-surrounded URL is
wrapped.  In `"See https://a.com https://b.com now"` the single space
between the URLs is consumed as the trailing whitespace of the first
match, so the second URL — which is surrounded by whitespace in the
input — is left without angle brackets. -/
theorem c7_overlapping_url_not_wrapped :
    fixContent "See https://a.com https://b.com now" =
      "See <https://a.com> https://b.com now" ∧
    hasSub " https://b.com ".data "See https://a.com https://b.com now".data = true ∧
    hasSub "<https://b.com>".data
      (fixContent "See https://a.com https://b.com now").data = false := by
  refine ⟨rfl, rfl, rfl⟩

/-- Claim C7 as amended: URLs surrounded by whitespace are wrapped in
angle brackets with both whitespace characters preserved, in a single
left-to-right non-overlapping scan, so a URL whose leading whitespace
was consumed as the trailing whitespace of the previous match stays
bare.  In particular `"See https://example.com for details"` becomes
`"See <https://example.com> for details"`. -/
theorem c7_url_wrapping_example :
    fixContent "See https://example.com for details" =
      "See <https://example.com> for details" := by
  rfl

/-!
## Helper lemmas for the blank-line and fence-tagging stages
-/

theorem dropWhile_length_le (p : Char → Bool) :
    ∀ l : List Char, (l.dropWhile p).length ≤ l.length
  | [] => Nat.le_refl _
  | c :: rest => by
    rw [List.dropWhile_cons]
    split
    · exact Nat.le_trans (dropWhile_length_le p rest) (Nat.le_succ _)
    · exact Nat.le_refl _

theorem dropWhile_head_false (p : Char → Bool) :
    ∀ (l : List Char) (c : Char) (t : List Char), l.dropWhile p = c :: t → p c = false
  | [], c, t, h => by simp [List.dropWhile] at h
  | a :: rest, c, t, h => by
    rw [List.dropWhile_cons] at h
    by_cases hp : p a = true
    · rw [if_pos hp] at h
      exact dropWhile_head_false p rest c t h
    · rw [if_neg hp] at h
      obtain ⟨hc, -⟩ := List.cons.inj h
      subst hc
      exact Bool.eq_false_iff.mpr hp

theorem take_one_of_take_two {l1 l2 : List Char} (h : l1.take 2 = l2.take 2) :
    l1.take 1 = l2.take 1 := by
  have := congrArg (List.take 1) h
  simpa [List.take_take] using this

theorem hasTriple_cons (c : Char) (l : List Char) :
    hasTriple (c :: l) =
      (decide ((c :: l).take 3 = ['\n', '\n', '\n']) || hasTriple l) := rfl

theorem hasTriple_tail_false {c : Char} {l : List Char}
    (h : hasTriple (c :: l) = false) : hasTriple l = false := by
  rw [hasTriple_cons] at h
  exact (Bool.or_eq_false_iff.mp h).2

theorem hasTriple_head_false {c : Char} {l : List Char}
    (h : hasTriple (c :: l) = false) :
    ((c :: l).take 3 = ['\n', '\n', '\n']) = False := by
  rw [hasTriple_cons] at h
  have := (Bool.or_eq_false_iff.mp h).1
  simpa using this

theorem hasTriple_drop_false :
    ∀ (n : Nat) (l : List Char), hasTriple l = false → hasTriple (l.drop n) = false
  | 0, _, h => h
  | _ + 1, [], h => h
  | n + 1, _ :: rest, h => hasTriple_drop_false n rest (hasTriple_tail_false h)

theorem collapseF_take_two (fuel : Nat) :
    ∀ l : List Char, (collapseF fuel l).take 2 = l.take 2 := by
  induction fuel with
  | zero => intro l; rfl
  | succ fuel ih =>
    intro l
    match l with
    | [] => rfl
    | c :: rest =>
      rw [collapseF]
      split
      case isTrue h =>
        rw [List.take_succ_cons] at h
        obtain ⟨hc, h2⟩ := List.cons.inj h
        subst hc
        have h1 : rest.take 1 = ['\n'] := by
          have := congrArg (List.take 1) h2
          simpa [List.take_take] using this
        simp [List.take_succ_cons, h1]
      case isFalse h =>
        simp only [List.take_succ_cons]
        have := take_one_of_take_two (ih rest)
        rw [this]

theorem fenceTagF_take_two (fuel : Nat) :
    ∀ l : List Char, (fenceTagF fuel l).take 2 = l.take 2 := by
  induction fuel with
  | zero => intro l; rfl
  | succ fuel ih =>
    intro l
    match l with
    | [] => rfl
    | c :: rest =>
      rw [fenceTagF]
      split
      case isTrue h =>
        rw [List.take_succ_cons] at h
        obtain ⟨hc, h4⟩ := List.cons.inj h
        subst hc
        have h1 : rest.take 1 = ['`'] := by
          have := congrArg (List.take 1) h4
          simpa [List.take_take] using this
        simp [List.take_succ_cons, h1]
      case isFalse h =>
        simp only [List.take_succ_cons]
        have := take_one_of_take_two (ih rest)
        rw [this]

theorem collapseF_noTriple (fuel : Nat) :
    ∀ l : List Char, l.length ≤ fuel → hasTriple (collapseF fuel l) = false := by
  induction fuel with
  | zero =>
    intro l hl
    have : l = [] := List.length_eq_zero.mp (Nat.le_zero.mp hl)
    subst this; rfl
  | succ fuel ih =>
    intro l hl
    match l with
    | [] => rfl
    | c :: rest =>
      rw [collapseF]
      split
      case isTrue h =>
        generalize hrem : ((c :: rest).drop 3).dropWhile (fun d => d = '\n') = rem
        have hremlen : rem.length ≤ fuel := by
          rw [← hrem]
          have h1 := dropWhile_length_le (fun d => d = '\n') ((c :: rest).drop 3)
          have h2 : ((c :: rest).drop 3).length = (c :: rest).length - 3 :=
            List.length_drop 3 (c :: rest)
          simp only [List.length_cons] at h2 hl
          omega
        have hX := ih rem hremlen
        have hX2 : (collapseF fuel rem).take 2 = rem.take 2 := collapseF_take_two fuel rem
        have hX1 : (collapseF fuel rem).take 1 = rem.take 1 := take_one_of_take_two hX2
        have hhead : ∀ c' t, rem = c' :: t → decide (c' = '\n') = false := by
          intro c' t hr
          exact dropWhile_head_false _ _ _ _ (hrem.trans hr)
        rw [hasTriple_cons, hasTriple_cons, Bool.or_eq_false_iff, Bool.or_eq_false_iff]
        refine ⟨?_, ?_, hX⟩
        · simp only [List.take_succ_cons, hX1]
          cases hr : rem with
          | nil => simp
          | cons c' t =>
            have hc' : ¬ (c' = '\n') := by simpa using hhead c' t hr
            simp [List.take_succ_cons, hc']
        · simp only [List.take_succ_cons, hX2]
          cases hr : rem with
          | nil => simp
          | cons c' t =>
            have hc' : ¬ (c' = '\n') := by simpa using hhead c' t hr
            simp [List.take_succ_cons, hc']
      case isFalse h =>
        have hlen : rest.length ≤ fuel := by
          simp only [List.length_cons] at hl; omega
        rw [hasTriple_cons, Bool.or_eq_false_iff]
        refine ⟨?_, ih rest hlen⟩
        simp only [List.take_succ_cons, collapseF_take_two fuel rest]
        rw [List.take_succ_cons] at h
        exact decide_eq_false h

theorem fenceTagF_noTriple (fuel : Nat) :
    ∀ l : List Char, l.length ≤ fuel → hasTriple l = false →
      hasTriple (fenceTagF fuel l) = false := by
  induction fuel with
  | zero =>
    intro l hl _
    have : l = [] := List.length_eq_zero.mp (Nat.le_zero.mp hl)
    subst this; rfl
  | succ fuel ih =>
    intro l hl htrip
    match l with
    | [] => rfl
    | c :: rest =>
      rw [fenceTagF]
      split
      case isTrue h =>
        rw [List.take_succ_cons] at h
        obtain ⟨hc, h4⟩ := List.cons.inj h
        subst hc
        simp only [List.drop_succ_cons]
        have hrest : rest = '`' :: '`' :: '`' :: '\n' :: rest.drop 4 := by
          conv_lhs => rw [← List.take_append_drop 4 rest]
          rw [h4]
          rfl
        have htail : hasTriple rest = false := hasTriple_tail_false htrip
        have h34 : rest.drop 3 = '\n' :: rest.drop 4 := by
          conv_lhs => rw [hrest]
          rfl
        have hkey : hasTriple ('\n' :: rest.drop 4) = false := by
          have := hasTriple_drop_false 3 rest htail
          rwa [h34] at this
        have htr2 : hasTriple (rest.drop 4) = false := hasTriple_tail_false hkey
        have hlen2 : (rest.drop 4).length ≤ fuel := by
          have := List.length_drop 4 rest
          simp only [List.length_cons] at hl
          omega
        have hXtrip := ih (rest.drop 4) hlen2 htr2
        have hXtake2 : (fenceTagF fuel (rest.drop 4)).take 2 = (rest.drop 4).take 2 :=
          fenceTagF_take_two fuel (rest.drop 4)
        have hr2take : ¬ ((rest.drop 4).take 2 = ['\n', '\n']) := by
          have h1 := hasTriple_head_false hkey
          intro hx
          rw [List.take_succ_cons, hx] at h1
          simp at h1
        simp [hasTriple_cons, List.take_succ_cons, hXtrip, hXtake2, hr2take]
      case isFalse h =>
        have hlen : rest.length ≤ fuel := by
          simp only [List.length_cons] at hl; omega
        have htail : hasTriple rest = false := hasTriple_tail_false htrip
        rw [hasTriple_cons, Bool.or_eq_false_iff]
        refine ⟨?_, ih rest hlen htail⟩
        simp only [List.take_succ_cons, fenceTagF_take_two fuel rest]
        have hh := hasTriple_head_false htrip
        rw [List.take_succ_cons] at hh
        exact decide_eq_false (fun hx => hh ▸ hx)

theorem fixContent_noTriple (s : String) : hasTriple (fixContent s).data = false := by
  show hasTriple (fenceTag (collapse (emailSub (urlSub (joinNl (pass2 (pass1 (splitNl s.data)))))))) = false
  exact fenceTagF_noTriple _ _ (Nat.le_refl _)
    (collapseF_noTriple _ _ (Nat.le_refl _))

/-- Claim C8 (confirmed): the blank-line collapsing substitution removes
every run of three or more newlines, and the fence-tagging substitution
applied after it cannot create one, so the final content of the
transformation never contains three consecutive newline characters; in
particular four consecutive newlines become exactly two. -/
theorem c8_no_triple_newline :
    (∀ s : String, hasTriple (fixContent s).data = false) ∧
    fixContent "a\n\n\n\nb" = "a\n\nb" :=
  ⟨fixContent_noTriple, rfl⟩

/-- Claim C9 (confirmed): `fix_markdown_file` writes the file if and only
if the transformed text differs from the original content, returns `True`
exactly in that case, and leaves the file content unchanged (and reports
not modified) when the transformed text equals the original — so a file
already satisfying all rules is never rewritten. -/
theorem c9_writeback_iff_changed (s : String) :
    ((fix_markdown_file s).wrote = true ↔ fixContent s ≠ s) ∧
    (fix_markdown_file s).ret = (fix_markdown_file s).wrote ∧
    ((fix_markdown_file s).wrote = true → (fix_markdown_file s).fileAfter = fixContent s) ∧
    (fixContent s = s →
      (fix_markdown_file s).wrote = false ∧ (fix_markdown_file s).fileAfter = s) := by
  unfold fix_markdown_file
  split
  case isTrue h => simp_all
  case isFalse h => simp_all

/-- Witness for C9 at a concrete fixed point of the transformation: the
already-clean file `"# Title\n\nBody\n"` is not rewritten. -/
theorem c9_writeback_iff_changed_witness :
    (fix_markdown_file "# Title\n\nBody\n").wrote = false ∧
    (fix_markdown_file "# Title\n\nBody\n").fileAfter = "# Title\n\nBody\n" :=
  (c9_writeback_iff_changed "# Title\n\nBody\n").2.2.2 rfl

/-!
## Helper lemmas for the fence-tagging boundary behaviour (claim C10)
-/

theorem fenceTagF_nl_head (fuel : Nat) (l : List Char) :
    ∃ t, fenceTagF fuel ('\n' :: l) = '\n' :: t := by
  cases fuel with
  | zero => exact ⟨l, rfl⟩
  | succ fuel =>
    rw [fenceTagF]
    split
    · exact ⟨'`' :: '`' :: '`' :: 'b' :: 'a' :: 's' :: 'h' :: '\n' ::
        fenceTagF fuel (('\n' :: l).drop 5), rfl⟩
    · exact ⟨fenceTagF fuel l, rfl⟩

theorem fenceTagF_no_nl (fuel : Nat) :
    ∀ l : List Char, (∀ c ∈ l, c ≠ '\n') → fenceTagF fuel l = l := by
  induction fuel with
  | zero => intro l _; rfl
  | succ fuel ih =>
    intro l hnl
    match l with
    | [] => rfl
    | c :: rest =>
      have hne : ¬ ((c :: rest).take 5 = ['\n', '`', '`', '`', '\n']) := by
        intro h
        rw [List.take_succ_cons] at h
        exact hnl c (List.mem_cons_self c rest) (List.cons.inj h).1
      rw [fenceTagF, if_neg hne, ih rest (fun d hd => hnl d (List.mem_cons_of_mem c hd))]

theorem fenceTagF_tick1 (fuel : Nat) (l : List Char) :
    ∃ t, fenceTagF fuel ('`' :: '\n' :: l) = '`' :: '\n' :: t := by
  cases fuel with
  | zero => exact ⟨l, rfl⟩
  | succ fuel =>
    have hne : ¬ (('`' :: '\n' :: l).take 5 = ['\n', '`', '`', '`', '\n']) := by
      intro h
      rw [List.take_succ_cons] at h
      exact absurd (List.cons.inj h).1 (by decide)
    rw [fenceTagF, if_neg hne]
    obtain ⟨t, ht⟩ := fenceTagF_nl_head fuel l
    exact ⟨t, by rw [ht]⟩

theorem fenceTagF_tick2 (fuel : Nat) (l : List Char) :
    ∃ t, fenceTagF fuel ('`' :: '`' :: '\n' :: l) = '`' :: '`' :: '\n' :: t := by
  cases fuel with
  | zero => exact ⟨l, rfl⟩
  | succ fuel =>
    have hne : ¬ (('`' :: '`' :: '\n' :: l).take 5 = ['\n', '`', '`', '`', '\n']) := by
      intro h
      rw [List.take_succ_cons] at h
      exact absurd (List.cons.inj h).1 (by decide)
    rw [fenceTagF, if_neg hne]
    obtain ⟨t, ht⟩ := fenceTagF_tick1 fuel l
    exact ⟨t, by rw [ht]⟩

theorem fenceTagF_tick3 (fuel : Nat) (l : List Char) :
    ∃ t, fenceTagF fuel ('`' :: '`' :: '`' :: '\n' :: l) = '`' :: '`' :: '`' :: '\n' :: t := by
  cases fuel with
  | zero => exact ⟨l, rfl⟩
  | succ fuel =>
    have hne : ¬ (('`' :: '`' :: '`' :: '\n' :: l).take 5 = ['\n', '`', '`', '`', '\n']) := by
      intro h
      rw [List.take_succ_cons] at h
      exact absurd (List.cons.inj h).1 (by decide)
    rw [fenceTagF, if_neg hne]
    obtain ⟨t, ht⟩ := fenceTagF_tick2 fuel l
    exact ⟨t, by rw [ht]⟩

theorem fenceTagF_keeps_trailing_bare (fuel : Nat) :
    ∀ l : List Char,
      ∃ t, fenceTagF fuel (l ++ ['\n', '`', '`', '`']) = t ++ ['\n', '`', '`', '`'] := by
  induction fuel with
  | zero => intro l; exact ⟨l, rfl⟩
  | succ fuel ih =>
    intro l
    match l with
    | [] =>
      refine ⟨[], ?_⟩
      simp only [List.nil_append]
      rw [fenceTagF, if_neg (by decide)]
      rw [fenceTagF_no_nl fuel ['`', '`', '`'] (by decide)]
    | c :: rest =>
      simp only [List.cons_append]
      by_cases h5 : ((c :: (rest ++ ['\n', '`', '`', '`'])).take 5 = ['\n', '`', '`', '`', '\n'])
      · rw [fenceTagF, if_pos h5]
        rw [List.take_succ_cons] at h5
        obtain ⟨hc, h4⟩ := List.cons.inj h5
        subst hc
        match rest with
        | [] => exact absurd h4 (by decide)
        | [r0] =>
          have hbad : (['\n', '`', '`'] : List Char) = ['`', '`', '\n'] :=
            congrArg (List.drop 1) h4
          exact absurd hbad (by decide)
        | [r0, r1] =>
          have hbad : (['\n', '`'] : List Char) = ['`', '\n'] :=
            congrArg (List.drop 2) h4
          exact absurd hbad (by decide)
        | [r0, r1, r2] =>
          simp only [List.cons_append, List.nil_append, List.take_succ_cons] at h4
          rw [List.cons.injEq, List.cons.injEq, List.cons.injEq, List.cons.injEq] at h4
          obtain ⟨h0, h1, h2, -, -⟩ := h4
          subst h0; subst h1; subst h2
          refine ⟨['\n', '`', '`', '`', 'b', 'a', 's', 'h'], ?_⟩
          show '\n' :: '`' :: '`' :: '`' :: 'b' :: 'a' :: 's' :: 'h' :: '\n' ::
              fenceTagF fuel ['`', '`', '`'] = _
          rw [fenceTagF_no_nl fuel ['`', '`', '`'] (by decide)]
          rfl
        | r0 :: r1 :: r2 :: r3 :: rest' =>
          simp only [List.cons_append, List.take_succ_cons] at h4
          rw [List.cons.injEq, List.cons.injEq, List.cons.injEq, List.cons.injEq] at h4
          obtain ⟨h0, h1, h2, h3, -⟩ := h4
          subst h0; subst h1; subst h2; subst h3
          obtain ⟨t', ht'⟩ := ih rest'
          refine ⟨'\n' :: '`' :: '`' :: '`' :: 'b' :: 'a' :: 's' :: 'h' :: '\n' :: t', ?_⟩
          show '\n' :: '`' :: '`' :: '`' :: 'b' :: 'a' :: 's' :: 'h' :: '\n' ::
              fenceTagF fuel (rest' ++ ['\n', '`', '`', '`']) = _
          rw [ht']
          simp
      · rw [fenceTagF, if_neg h5]
        obtain ⟨t', ht'⟩ := ih rest
        exact ⟨c :: t', by rw [ht']; rfl⟩

/-- Claim C10 (confirmed): the fence language tagging rewrites only a bare
fence that has a newline immediately before and after it.  A bare fence
opening the content (the output keeps the untagged `` ```\n `` prefix) or
closing it with no trailing newline (the output keeps the untagged
`` \n``` `` suffix) is never given a language tag; the concrete inputs
`"```\ncode\n"`, `"code\n```"` and `"```"` pass through unchanged. -/
theorem c10_fence_tag_requires_surrounding_newlines :
    (∀ l : List Char,
      ∃ t, fenceTag ('`' :: '`' :: '`' :: '\n' :: l) = '`' :: '`' :: '`' :: '\n' :: t) ∧
    (∀ l : List Char,
      ∃ t, fenceTag (l ++ ['\n', '`', '`', '`']) = t ++ ['\n', '`', '`', '`']) ∧
    fenceTag "```\ncode\n".data = "```\ncode\n".data ∧
    fenceTag "code\n```".data = "code\n```".data ∧
    fenceTag "```".data = "```".data := by
  refine ⟨?_, ?_, rfl, rfl, rfl⟩
  · intro l
    exact fenceTagF_tick3 _ l
  · intro l
    exact fenceTagF_keeps_trailing_bare _ l
